import Mathlib

/-!
Shallow embedding of the `PrivacyPollsFHE` contract (the encrypted-vote ledger,
its aggregation engine and its decryption-oracle request/callback protocol)
together with proofs of the specification's testable properties.

Modelling conventions, matching the source contract:

* Solidity `uint256` values (vote ids, voter ids, timestamps, request ids,
  hashes) are modelled as `Nat`.
* An `euint32` handle submitted by a voter is only ever used through its
  `bytes32` representation (`FHE.toBytes32` / `bytes32ToString`); the contract
  never performs arithmetic on a submitted vote's handle.  A submitted handle
  is therefore identified with its `bytes32` value, modelled as a `Nat`, and
  the injective byte-to-string conversion `bytes32ToString` is the identity on
  that value.
* An `euint32` storage slot defaults to the zero handle, for which
  `FHE.isInitialized` is `false`; a slot is modelled as `Option Nat`
  (`none` = uninitialized, `some v` = an initialized handle whose decryption
  is `v`).  `euint32` arithmetic wraps modulo `2 ^ 32`, and the FHE solidity
  library replaces an uninitialized operand of a binary operation by an
  encryption of zero.
* The external decryption oracle of the FHE capability is modelled honestly:
  `FHE.requestDecryption` hands out consecutive fresh request ids and records
  the plaintext of the submitted ciphertext handle; `FHE.checkSignatures`
  succeeds exactly when the submitted proof bytes are a genuine oracle
  attestation (`proofOk = true`) for cleartexts equal to that recorded
  plaintext (soundness of the decryption proof).
* keccak256 over the ABI-encoded choice string is idealized as an injective
  function with no zero output (`0` is the Solidity mapping default standing
  for "no stored commitment").
* A Solidity `revert` aborts the whole call with no state change; fallible
  entry points therefore return `Except PollError (PollState × List Event)`
  and an `error` result leaves the caller's state untouched by construction.
-/

namespace PrivacyPolls

/-- Solidity `bytes32`, modelled as a natural number. -/
abbrev Bytes32 := Nat

/-- An `euint32` ciphertext handle as submitted by a voter, identified with
its `bytes32` representation. -/
abbrev Euint32Handle := Nat

/-- An `euint32` storage slot: `none` is the uninitialized (zero) handle,
`some v` an initialized handle whose decryption is `v`. -/
abbrev Euint32Slot := Option Nat

/-- The function `FHE.toBytes32` on a submitted handle. -/
def FHE.toBytes32 (h : Euint32Handle) : Bytes32 := h

/-- The helper `bytes32ToString` copies the 32 bytes of a `bytes32` into a
`string`; it is injective, so the resulting mapping key is modelled by the
`bytes32` value itself. -/
def bytes32ToString (b : Bytes32) : Nat := b

/-- The helper `bytes32ToUint` reinterprets a `bytes32` as a `uint256`. -/
def bytes32ToUint (b : Bytes32) : Nat := b

/-- keccak256 over the ABI-encoded choice string, idealized as an injective
function whose output is never `0`. -/
def keccak256 (s : Nat) : Nat := s + 1

/-- The predicate `FHE.isInitialized` on a storage slot. -/
def FHE.isInitialized (a : Euint32Slot) : Bool := a.isSome

/-- The function `FHE.asEuint32`: a trivial encryption of a plaintext. -/
def FHE.asEuint32 (n : Nat) : Euint32Slot := some (n % 2 ^ 32)

/-- Homomorphic addition `FHE.add` on `euint32`: wraps modulo `2 ^ 32`; an
uninitialized operand is treated as an encryption of zero by the library. -/
def FHE.add (a b : Euint32Slot) : Euint32Slot :=
  some ((a.getD 0 + b.getD 0) % 2 ^ 32)

/-- The struct `EncryptedVote` of the contract. -/
structure EncryptedVote where
  voterId : Nat
  encryptedChoice : Euint32Handle
  timestamp : Nat
  deriving DecidableEq

/-- The events emitted by the contract. -/
inductive Event where
  | VoteSubmitted (voterId : Nat) (timestamp : Nat)
  | DecryptionRequested (requestId : Nat)
  | VoteCountDecrypted (choice : Nat) (count : Nat)
  deriving DecidableEq

/-- The revert reasons of the contract: `ChoiceNotFound` for the
`"Choice not found"` reverts (both the `require` in `requestChoiceDecryption`
and the final `revert` of `getChoiceFromHash`), `InvalidProof` for a failing
`FHE.checkSignatures`. -/
inductive PollError where
  | ChoiceNotFound
  | InvalidProof
  deriving DecidableEq

/-- The contract storage, together with the state of the external oracle
capability (`nextRequestId`, `fheOracle`): `fheOracle r` records the plaintext
of the ciphertext handle submitted to the oracle under request id `r`. -/
structure PollState where
  voteCount : Nat
  encryptedVotes : Nat → EncryptedVote
  encryptedChoiceCount : Nat → Euint32Slot
  choiceList : List Nat
  decryptionRequests : Nat → Nat
  nextRequestId : Nat
  fheOracle : Nat → Euint32Slot

attribute [ext] PollState

/-- Freshly deployed contract: all mappings hold Solidity defaults. -/
def initState : PollState where
  voteCount := 0
  encryptedVotes := fun _ => ⟨0, 0, 0⟩
  encryptedChoiceCount := fun _ => none
  choiceList := []
  decryptionRequests := fun _ => 0
  nextRequestId := 0
  fheOracle := fun _ => none

/-- The mapping key the contract derives from a vote's ciphertext handle. -/
def keyOfVote (v : EncryptedVote) : Nat := bytes32ToString (FHE.toBytes32 v.encryptedChoice)

/-- The entry point `submitEncryptedVote`: appends the vote under index
`voteCount + 1`, and if the ciphertext-derived key is not yet initialized in
`encryptedChoiceCount`, initializes it to an encryption of zero and pushes it
onto `choiceList`; emits `VoteSubmitted`.  (`block.timestamp` is passed as the
`timestamp` argument; the `onlyVoter` modifier is an empty placeholder and is
not even applied to this function.) -/
def submitEncryptedVote (st : PollState) (voterId : Nat) (encryptedChoice : Euint32Handle)
    (timestamp : Nat) : PollState × List Event :=
  let newCount := st.voteCount + 1
  let votes1 : Nat → EncryptedVote := fun i =>
    if i = newCount then ⟨voterId, encryptedChoice, timestamp⟩ else st.encryptedVotes i
  let choiceStr := bytes32ToString (FHE.toBytes32 encryptedChoice)
  if FHE.isInitialized (st.encryptedChoiceCount choiceStr) then
    ({ st with voteCount := newCount, encryptedVotes := votes1 },
      [Event.VoteSubmitted voterId timestamp])
  else
    ({ st with
        voteCount := newCount
        encryptedVotes := votes1
        encryptedChoiceCount := fun k =>
          if k = choiceStr then FHE.asEuint32 0 else st.encryptedChoiceCount k
        choiceList := st.choiceList ++ [choiceStr] },
      [Event.VoteSubmitted voterId timestamp])

/-- One iteration of the loop body of `aggregateVotes` for loop index `i`:
homomorphically adds an encryption of `1` to the tally keyed by vote
`i + 1`'s ciphertext-derived string. -/
def aggregateStep (st : PollState) (i : Nat) : PollState :=
  let v := st.encryptedVotes (i + 1)
  let choiceStr := bytes32ToString (FHE.toBytes32 v.encryptedChoice)
  { st with
      encryptedChoiceCount := fun k =>
        if k = choiceStr then
          FHE.add (st.encryptedChoiceCount choiceStr) (FHE.asEuint32 1)
        else st.encryptedChoiceCount k }

/-- The entry point `aggregateVotes`: rescans the entire ledger, votes `1`
through `voteCount`, on every call (there is no aggregation cursor in the
contract). -/
def aggregateVotes (st : PollState) : PollState :=
  (List.range st.voteCount).foldl aggregateStep st

/-- The entry point `requestChoiceDecryption`: requires an initialized tally
(else reverts with `"Choice not found"`), submits the tally's ciphertext
handle to the oracle under a fresh request id, stores
`keccak256(abi.encodePacked(choice))` as the pending commitment for that id
and emits `DecryptionRequested`. -/
def requestChoiceDecryption (st : PollState) (choice : Nat) :
    Except PollError (PollState × List Event) :=
  let count := st.encryptedChoiceCount choice
  if FHE.isInitialized count then
    let reqId := st.nextRequestId
    .ok
      ({ st with
          nextRequestId := reqId + 1
          fheOracle := fun r => if r = reqId then count else st.fheOracle r
          decryptionRequests := fun r =>
            if r = reqId then bytes32ToUint (keccak256 choice) else st.decryptionRequests r },
        [Event.DecryptionRequested reqId])
  else
    .error .ChoiceNotFound

/-- The helper `getChoiceFromHash`: linear scan of `choiceList` for the first
entry whose keccak hash equals `hash`; reverts `"Choice not found"` when no
entry matches. -/
def getChoiceFromHash (choiceList : List Nat) (hash : Nat) : Except PollError Nat :=
  match choiceList with
  | [] => .error .ChoiceNotFound
  | c :: rest =>
      if bytes32ToUint (keccak256 c) = hash then .ok c else getChoiceFromHash rest hash

/-- The verification `FHE.checkSignatures`: succeeds exactly when the proof
bytes are a genuine oracle attestation (`proofOk`) for cleartexts equal to the
decryption of the ciphertexts registered with the oracle under `requestId`. -/
def FHE.checkSignatures (st : PollState) (requestId : Nat) (cleartexts : Nat)
    (proofOk : Bool) : Bool :=
  proofOk && (st.fheOracle requestId == some cleartexts)

/-- The callback `decryptChoiceCount`: reads the stored commitment for
`requestId` (Solidity mapping default `0` when none is stored), resolves the
choice string by reverse hash lookup over `choiceList`, verifies the oracle
signatures, ABI-decodes the cleartexts and emits `VoteCountDecrypted`.  Note
that the contract never deletes `decryptionRequests[requestId]`: the storage
is returned unchanged on success. -/
def decryptChoiceCount (st : PollState) (requestId : Nat) (cleartexts : Nat)
    (proofOk : Bool) : Except PollError (PollState × List Event) :=
  let choiceHash := st.decryptionRequests requestId
  match getChoiceFromHash st.choiceList choiceHash with
  | .error e => .error e
  | .ok choice =>
      if FHE.checkSignatures st requestId cleartexts proofOk then
        .ok (st, [Event.VoteCountDecrypted choice cleartexts])
      else
        .error .InvalidProof

/-- The view `getEncryptedChoiceCount`. -/
def getEncryptedChoiceCount (st : PollState) (choice : Nat) : Euint32Slot :=
  st.encryptedChoiceCount choice

/-- The view `getChoiceList`. -/
def getChoiceList (st : PollState) : List Nat := st.choiceList

/-- The list of ciphertext-derived keys the aggregation loop processes, in
loop order: the keys of votes `1` through `voteCount`. -/
def aggKeys (st : PollState) : List Nat :=
  (List.range st.voteCount).map fun i => keyOfVote (st.encryptedVotes (i + 1))

/-- The state produced by a successful `requestChoiceDecryption st ch`. -/
def stateAfterRequest (st : PollState) (ch : Nat) : PollState :=
  { st with
      nextRequestId := st.nextRequestId + 1
      fheOracle := fun r =>
        if r = st.nextRequestId then st.encryptedChoiceCount ch else st.fheOracle r
      decryptionRequests := fun r =>
        if r = st.nextRequestId then bytes32ToUint (keccak256 ch)
        else st.decryptionRequests r }

/-- One atomic state transition of the contract: any entry point invoked with
any arguments, keeping the post-state of a successful call (a reverted call
leaves the state unchanged and is therefore subsumed by reflexivity of
`Steps`). -/
inductive Step : PollState → PollState → Prop where
  | submit (st : PollState) (vid c ts : Nat) :
      Step st (submitEncryptedVote st vid c ts).1
  | aggregate (st : PollState) : Step st (aggregateVotes st)
  | request (st st1 : PollState) (ch : Nat) (evs : List Event)
      (h : requestChoiceDecryption st ch = .ok (st1, evs)) : Step st st1
  | callback (st st1 : PollState) (rid cl : Nat) (p : Bool) (evs : List Event)
      (h : decryptChoiceCount st rid cl p = .ok (st1, evs)) : Step st st1

/-- Any finite sequence of contract calls. -/
def Steps : PollState → PollState → Prop := Relation.ReflTransGen Step

/-- States reachable from a freshly deployed contract. -/
def Reachable (st : PollState) : Prop := Steps initState st

/-- The state invariant maintained by every entry point from deployment on:
the choice list has no duplicates; a key is listed exactly when its tally is
initialized; every stored vote's ciphertext-derived key is listed; request
ids at or above `nextRequestId` are unused; and every stored pending
commitment is the hash of some listed key whose snapshot is registered with
the oracle. -/
structure Inv (st : PollState) : Prop where
  nodup : st.choiceList.Nodup
  listed_init : ∀ X, X ∈ st.choiceList → (st.encryptedChoiceCount X).isSome
  init_listed : ∀ X, (st.encryptedChoiceCount X).isSome → X ∈ st.choiceList
  votes_listed : ∀ i, i < st.voteCount → keyOfVote (st.encryptedVotes (i + 1)) ∈ st.choiceList
  fresh_req : ∀ r, st.nextRequestId ≤ r → st.decryptionRequests r = 0
  fresh_oracle : ∀ r, st.nextRequestId ≤ r → st.fheOracle r = none
  pending_resolves : ∀ r, st.decryptionRequests r ≠ 0 →
    ∃ X, X ∈ st.choiceList ∧ st.decryptionRequests r = bytes32ToUint (keccak256 X) ∧
      (st.fheOracle r).isSome

/-- Submission of a batch of votes, each given as
`(voterId, encryptedChoice, timestamp)`. -/
def submitAll (st : PollState) (vs : List (Nat × Nat × Nat)) : PollState :=
  vs.foldl (fun s v => (submitEncryptedVote s v.1 v.2.1 v.2.2).1) st

/-- The ciphertext-derived keys of a batch of votes, in submission order. -/
def keysOf (vs : List (Nat × Nat × Nat)) : List Nat :=
  vs.map fun v => bytes32ToString (FHE.toBytes32 v.2.1)

/-- Exact description of the state reached by submitting the batch `vs` into a
fresh deployment: `voteCount` counts the batch, votes are stored in order
under indices `1..length`, and exactly the keys occurring in the batch are
initialized (to an encryption of zero) and listed. -/
structure SubmitSpec (vs : List (Nat × Nat × Nat)) (st : PollState) : Prop where
  count_eq : st.voteCount = vs.length
  votes_eq : ∀ i (h : i < vs.length),
    st.encryptedVotes (i + 1) =
      ⟨(vs.get ⟨i, h⟩).1, (vs.get ⟨i, h⟩).2.1, (vs.get ⟨i, h⟩).2.2⟩
  tally_mem : ∀ X, X ∈ keysOf vs → st.encryptedChoiceCount X = some 0
  tally_not_mem : ∀ X, X ∉ keysOf vs → st.encryptedChoiceCount X = none
  mem_list : ∀ X, X ∈ st.choiceList ↔ X ∈ keysOf vs

/-- Fresh deployment after one vote: voter 1 submits ciphertext handle 7 at
timestamp 0. -/
def exSt1 : PollState := (submitEncryptedVote initState 1 7 0).1

/-- State after first aggregation of the single vote. -/
def exSt2 : PollState := aggregateVotes exSt1

/-- State after `requestChoiceDecryption` for the (ciphertext-derived) choice
key 7: request id 0 is pending with commitment `keccak256 7 = 8` and snapshot
value 1. -/
def exSt3 : PollState := stateAfterRequest exSt2 7

/-- State after a further vote (voter 2, handle 9, timestamp 1) and another
aggregation happen between the decryption request and its callback. -/
def exSt4 : PollState := aggregateVotes ((submitEncryptedVote exSt3 2 9 1).1)

/-- A state holding one ledger entry whose ciphertext-derived key 7 is not
registered: the tally mapping is empty and so is the choice list.  No such
state is reachable through the contract's entry points (submission always
registers the key), but the aggregation loop is a total function on states
and this state exercises its unregistered-key branch. -/
def unregState : PollState :=
  { initState with
      voteCount := 1
      encryptedVotes := fun i => if i = 1 then ⟨1, 7, 0⟩ else ⟨0, 0, 0⟩ }

/-! ### Basic frame lemmas for the individual entry points -/

theorem submit_voteCount (st : PollState) (vid c ts : Nat) :
    (submitEncryptedVote st vid c ts).1.voteCount = st.voteCount + 1 := by
  unfold submitEncryptedVote; dsimp only; split <;> rfl

theorem submit_encryptedVotes (st : PollState) (vid c ts : Nat) :
    (submitEncryptedVote st vid c ts).1.encryptedVotes = fun i =>
      if i = st.voteCount + 1 then ⟨vid, c, ts⟩ else st.encryptedVotes i := by
  unfold submitEncryptedVote; dsimp only; split <;> rfl

theorem submit_decryptionRequests (st : PollState) (vid c ts : Nat) :
    (submitEncryptedVote st vid c ts).1.decryptionRequests = st.decryptionRequests := by
  unfold submitEncryptedVote; dsimp only; split <;> rfl

theorem submit_nextRequestId (st : PollState) (vid c ts : Nat) :
    (submitEncryptedVote st vid c ts).1.nextRequestId = st.nextRequestId := by
  unfold submitEncryptedVote; dsimp only; split <;> rfl

theorem submit_fheOracle (st : PollState) (vid c ts : Nat) :
    (submitEncryptedVote st vid c ts).1.fheOracle = st.fheOracle := by
  unfold submitEncryptedVote; dsimp only; split <;> rfl

theorem submit_events (st : PollState) (vid c ts : Nat) :
    (submitEncryptedVote st vid c ts).2 = [Event.VoteSubmitted vid ts] := by
  unfold submitEncryptedVote; dsimp only; split <;> rfl

theorem submit_choiceList_of_init (st : PollState) (vid c ts : Nat)
    (h : (st.encryptedChoiceCount (bytes32ToString (FHE.toBytes32 c))).isSome) :
    (submitEncryptedVote st vid c ts).1.choiceList = st.choiceList := by
  unfold submitEncryptedVote
  dsimp only
  rw [if_pos]; exact h

theorem submit_tally_of_init (st : PollState) (vid c ts : Nat)
    (h : (st.encryptedChoiceCount (bytes32ToString (FHE.toBytes32 c))).isSome) :
    (submitEncryptedVote st vid c ts).1.encryptedChoiceCount = st.encryptedChoiceCount := by
  unfold submitEncryptedVote
  dsimp only
  rw [if_pos]; exact h

theorem submit_choiceList_of_not_init (st : PollState) (vid c ts : Nat)
    (h : ¬ (st.encryptedChoiceCount (bytes32ToString (FHE.toBytes32 c))).isSome) :
    (submitEncryptedVote st vid c ts).1.choiceList
      = st.choiceList ++ [bytes32ToString (FHE.toBytes32 c)] := by
  unfold submitEncryptedVote
  dsimp only
  rw [if_neg]
  simpa [FHE.isInitialized] using h

theorem submit_tally_of_not_init (st : PollState) (vid c ts : Nat)
    (h : ¬ (st.encryptedChoiceCount (bytes32ToString (FHE.toBytes32 c))).isSome) :
    (submitEncryptedVote st vid c ts).1.encryptedChoiceCount = fun k =>
      if k = bytes32ToString (FHE.toBytes32 c) then FHE.asEuint32 0
      else st.encryptedChoiceCount k := by
  unfold submitEncryptedVote
  dsimp only
  rw [if_neg]
  simpa [FHE.isInitialized] using h

theorem aggregateStep_encryptedVotes (st : PollState) (i : Nat) :
    (aggregateStep st i).encryptedVotes = st.encryptedVotes := rfl

theorem aggregateStep_voteCount (st : PollState) (i : Nat) :
    (aggregateStep st i).voteCount = st.voteCount := rfl

theorem aggregateStep_choiceList (st : PollState) (i : Nat) :
    (aggregateStep st i).choiceList = st.choiceList := rfl

theorem aggregateStep_decryptionRequests (st : PollState) (i : Nat) :
    (aggregateStep st i).decryptionRequests = st.decryptionRequests := rfl

theorem aggregateStep_nextRequestId (st : PollState) (i : Nat) :
    (aggregateStep st i).nextRequestId = st.nextRequestId := rfl

theorem aggregateStep_fheOracle (st : PollState) (i : Nat) :
    (aggregateStep st i).fheOracle = st.fheOracle := rfl

theorem aggregateStep_tally (st : PollState) (i : Nat) :
    (aggregateStep st i).encryptedChoiceCount = fun k =>
      if k = keyOfVote (st.encryptedVotes (i + 1)) then
        FHE.add (st.encryptedChoiceCount (keyOfVote (st.encryptedVotes (i + 1))))
          (FHE.asEuint32 1)
      else st.encryptedChoiceCount k := rfl

theorem foldl_aggregateStep_encryptedVotes (l : List Nat) (st : PollState) :
    (l.foldl aggregateStep st).encryptedVotes = st.encryptedVotes := by
  induction l generalizing st with
  | nil => rfl
  | cons i l ih => rw [List.foldl_cons, ih, aggregateStep_encryptedVotes]

theorem foldl_aggregateStep_voteCount (l : List Nat) (st : PollState) :
    (l.foldl aggregateStep st).voteCount = st.voteCount := by
  induction l generalizing st with
  | nil => rfl
  | cons i l ih => rw [List.foldl_cons, ih, aggregateStep_voteCount]

theorem foldl_aggregateStep_choiceList (l : List Nat) (st : PollState) :
    (l.foldl aggregateStep st).choiceList = st.choiceList := by
  induction l generalizing st with
  | nil => rfl
  | cons i l ih => rw [List.foldl_cons, ih, aggregateStep_choiceList]

theorem foldl_aggregateStep_decryptionRequests (l : List Nat) (st : PollState) :
    (l.foldl aggregateStep st).decryptionRequests = st.decryptionRequests := by
  induction l generalizing st with
  | nil => rfl
  | cons i l ih => rw [List.foldl_cons, ih, aggregateStep_decryptionRequests]

theorem foldl_aggregateStep_nextRequestId (l : List Nat) (st : PollState) :
    (l.foldl aggregateStep st).nextRequestId = st.nextRequestId := by
  induction l generalizing st with
  | nil => rfl
  | cons i l ih => rw [List.foldl_cons, ih, aggregateStep_nextRequestId]

theorem foldl_aggregateStep_fheOracle (l : List Nat) (st : PollState) :
    (l.foldl aggregateStep st).fheOracle = st.fheOracle := by
  induction l generalizing st with
  | nil => rfl
  | cons i l ih => rw [List.foldl_cons, ih, aggregateStep_fheOracle]

theorem FHE_add_asEuint32_one (a : Euint32Slot) :
    FHE.add a (FHE.asEuint32 1) = some ((a.getD 0 + 1) % 2 ^ 32) := by
  unfold FHE.add FHE.asEuint32
  norm_num

/-- Characterization of the aggregation loop over an arbitrary index list:
the tally of key `X` receives one homomorphic increment per processed vote
whose ciphertext-derived key is `X`. -/
theorem foldl_aggregateStep_tally_eq (l : List Nat) (st : PollState) (X : Nat) :
    (l.foldl aggregateStep st).encryptedChoiceCount X =
      if (l.map fun i => keyOfVote (st.encryptedVotes (i + 1))).count X = 0 then
        st.encryptedChoiceCount X
      else
        some (((st.encryptedChoiceCount X).getD 0 +
          (l.map fun i => keyOfVote (st.encryptedVotes (i + 1))).count X) % 2 ^ 32) := by
  induction l generalizing st with
  | nil => simp
  | cons i l ih =>
      rw [List.foldl_cons]
      have hkeys : (fun j => keyOfVote ((aggregateStep st i).encryptedVotes (j + 1)))
          = fun j => keyOfVote (st.encryptedVotes (j + 1)) := by
        rw [aggregateStep_encryptedVotes]
      have h := ih (aggregateStep st i)
      rw [hkeys] at h
      rw [h, aggregateStep_tally]
      by_cases hX : X = keyOfVote (st.encryptedVotes (i + 1))
      · rw [hX]
        simp only [List.map_cons, List.count_cons_self, FHE_add_asEuint32_one,
          eq_self_iff_true, if_true, Option.getD_some]
        by_cases hc : (l.map fun j => keyOfVote (st.encryptedVotes (j + 1))).count
            (keyOfVote (st.encryptedVotes (i + 1))) = 0
        · rw [if_pos hc, hc, if_neg (Nat.succ_ne_zero 0)]
        · rw [if_neg hc, if_neg (Nat.succ_ne_zero _), Nat.mod_add_mod]
          congr 2
          omega
      · simp only [List.map_cons, List.count_cons_of_ne hX, if_neg hX]

theorem aggregateVotes_tally (st : PollState) (X : Nat) :
    (aggregateVotes st).encryptedChoiceCount X =
      if (aggKeys st).count X = 0 then st.encryptedChoiceCount X
      else
        some (((st.encryptedChoiceCount X).getD 0 + (aggKeys st).count X) % 2 ^ 32) := by
  unfold aggregateVotes aggKeys
  exact foldl_aggregateStep_tally_eq (List.range st.voteCount) st X

theorem aggregateVotes_choiceList (st : PollState) :
    (aggregateVotes st).choiceList = st.choiceList :=
  foldl_aggregateStep_choiceList (List.range st.voteCount) st

theorem aggregateVotes_voteCount (st : PollState) :
    (aggregateVotes st).voteCount = st.voteCount :=
  foldl_aggregateStep_voteCount (List.range st.voteCount) st

theorem aggregateVotes_encryptedVotes (st : PollState) :
    (aggregateVotes st).encryptedVotes = st.encryptedVotes :=
  foldl_aggregateStep_encryptedVotes (List.range st.voteCount) st

theorem aggregateVotes_decryptionRequests (st : PollState) :
    (aggregateVotes st).decryptionRequests = st.decryptionRequests :=
  foldl_aggregateStep_decryptionRequests (List.range st.voteCount) st

theorem aggregateVotes_nextRequestId (st : PollState) :
    (aggregateVotes st).nextRequestId = st.nextRequestId :=
  foldl_aggregateStep_nextRequestId (List.range st.voteCount) st

theorem aggregateVotes_fheOracle (st : PollState) :
    (aggregateVotes st).fheOracle = st.fheOracle :=
  foldl_aggregateStep_fheOracle (List.range st.voteCount) st

/-! ### Inversion lemmas for the fallible entry points -/

theorem request_eq_of_init (st : PollState) (ch : Nat)
    (h : (st.encryptedChoiceCount ch).isSome) :
    requestChoiceDecryption st ch
      = .ok (stateAfterRequest st ch, [Event.DecryptionRequested st.nextRequestId]) := by
  unfold requestChoiceDecryption stateAfterRequest
  dsimp only
  rw [if_pos]
  exact h

theorem request_eq_of_not_init (st : PollState) (ch : Nat)
    (h : ¬ (st.encryptedChoiceCount ch).isSome) :
    requestChoiceDecryption st ch = .error .ChoiceNotFound := by
  unfold requestChoiceDecryption
  dsimp only
  rw [if_neg]
  simpa [FHE.isInitialized] using h

theorem request_ok_elim (st st1 : PollState) (ch : Nat) (evs : List Event)
    (h : requestChoiceDecryption st ch = .ok (st1, evs)) :
    (st.encryptedChoiceCount ch).isSome ∧ st1 = stateAfterRequest st ch ∧
      evs = [Event.DecryptionRequested st.nextRequestId] := by
  by_cases hi : (st.encryptedChoiceCount ch).isSome
  · rw [request_eq_of_init st ch hi] at h
    refine ⟨hi, ?_, ?_⟩
    · exact (congrArg Prod.fst (Except.ok.inj h)).symm
    · exact (congrArg Prod.snd (Except.ok.inj h)).symm
  · rw [request_eq_of_not_init st ch hi] at h
    exact absurd h (by simp)

theorem decrypt_ok_elim (st st1 : PollState) (rid cl : Nat) (p : Bool) (evs : List Event)
    (h : decryptChoiceCount st rid cl p = .ok (st1, evs)) :
    st1 = st ∧ FHE.checkSignatures st rid cl p = true ∧
      ∃ choice, getChoiceFromHash st.choiceList (st.decryptionRequests rid) = .ok choice ∧
        evs = [Event.VoteCountDecrypted choice cl] := by
  unfold decryptChoiceCount at h
  dsimp only at h
  cases hg : getChoiceFromHash st.choiceList (st.decryptionRequests rid) with
  | error e => rw [hg] at h; exact absurd h (by simp)
  | ok choice =>
      rw [hg] at h
      dsimp only at h
      by_cases hs : FHE.checkSignatures st rid cl p = true
      · rw [if_pos hs] at h
        refine ⟨(congrArg Prod.fst (Except.ok.inj h)).symm, hs, choice, rfl, ?_⟩
        exact (congrArg Prod.snd (Except.ok.inj h)).symm
      · rw [if_neg hs] at h
        exact absurd h (by simp)

/-- Reverse hash lookup recovers exactly the queried key: keccak256 is
injective, so the first and only entry of `choiceList` whose hash matches
`keccak256 X` is `X` itself. -/
theorem getChoiceFromHash_keccak (l : List Nat) (X : Nat) (hX : X ∈ l) :
    getChoiceFromHash l (bytes32ToUint (keccak256 X)) = .ok X := by
  induction l with
  | nil => exact absurd hX (List.not_mem_nil X)
  | cons c rest ih =>
      unfold getChoiceFromHash
      by_cases hc : c = X
      · rw [if_pos]
        · rw [hc]
        · rw [hc]
      · rw [if_neg]
        · refine ih ?_
          rcases List.mem_cons.mp hX with h | h
          · exact absurd h.symm hc
          · exact h
        · simp only [bytes32ToUint, keccak256]
          omega

/-- The Solidity mapping default `0` never matches any stored hash: a callback
for a request id with no stored commitment reverts inside
`getChoiceFromHash`. -/
theorem getChoiceFromHash_zero (l : List Nat) :
    getChoiceFromHash l 0 = .error .ChoiceNotFound := by
  induction l with
  | nil => rfl
  | cons c rest ih =>
      unfold getChoiceFromHash
      rw [if_neg]
      · exact ih
      · simp only [bytes32ToUint, keccak256]
        omega

/-! ### The transition system of the contract and its reachability invariant -/

theorem Step_choiceList_extends (st st' : PollState) (h : Step st st') :
    ∃ l, st'.choiceList = st.choiceList ++ l := by
  cases h with
  | submit vid c ts =>
      by_cases hi : (st.encryptedChoiceCount (bytes32ToString (FHE.toBytes32 c))).isSome
      · exact ⟨[], by rw [submit_choiceList_of_init st vid c ts hi, List.append_nil]⟩
      · exact ⟨[bytes32ToString (FHE.toBytes32 c)], submit_choiceList_of_not_init st vid c ts hi⟩
  | aggregate =>
      exact ⟨[], by rw [aggregateVotes_choiceList, List.append_nil]⟩
  | request st1 ch evs h =>
      obtain ⟨-, rfl, -⟩ := request_ok_elim st _ ch evs h
      exact ⟨[], (List.append_nil _).symm⟩
  | callback st1 rid cl p evs h =>
      obtain ⟨rfl, -, -⟩ := decrypt_ok_elim st _ rid cl p evs h
      exact ⟨[], (List.append_nil _).symm⟩

theorem Step_persist (st st' : PollState) (h : Step st st') :
    st.nextRequestId ≤ st'.nextRequestId ∧
      ∀ r, r < st.nextRequestId →
        st'.decryptionRequests r = st.decryptionRequests r ∧
          st'.fheOracle r = st.fheOracle r := by
  cases h with
  | submit vid c ts =>
      rw [submit_nextRequestId, submit_decryptionRequests, submit_fheOracle]
      exact ⟨le_refl _, fun r _ => ⟨rfl, rfl⟩⟩
  | aggregate =>
      rw [aggregateVotes_nextRequestId, aggregateVotes_decryptionRequests,
        aggregateVotes_fheOracle]
      exact ⟨le_refl _, fun r _ => ⟨rfl, rfl⟩⟩
  | request st1 ch evs h =>
      obtain ⟨-, rfl, -⟩ := request_ok_elim st _ ch evs h
      unfold stateAfterRequest
      refine ⟨Nat.le_succ _, fun r hr => ?_⟩
      have hne : r ≠ st.nextRequestId := Nat.ne_of_lt hr
      exact ⟨if_neg hne, if_neg hne⟩
  | callback st1 rid cl p evs h =>
      obtain ⟨rfl, -, -⟩ := decrypt_ok_elim st _ rid cl p evs h
      exact ⟨le_refl _, fun r _ => ⟨rfl, rfl⟩⟩

theorem Steps_choiceList_extends (st st' : PollState) (h : Steps st st') :
    ∃ l, st'.choiceList = st.choiceList ++ l := by
  induction h with
  | refl => exact ⟨[], (List.append_nil _).symm⟩
  | tail hab hbc ih =>
      obtain ⟨l1, hl1⟩ := ih
      obtain ⟨l2, hl2⟩ := Step_choiceList_extends _ _ hbc
      exact ⟨l1 ++ l2, by rw [hl2, hl1, List.append_assoc]⟩

theorem Inv.submit (st : PollState) (hst : Inv st) (vid c ts : Nat) :
    Inv (submitEncryptedVote st vid c ts).1 := by
  have h1 := submit_voteCount st vid c ts
  have h2 := submit_encryptedVotes st vid c ts
  have h3 := submit_decryptionRequests st vid c ts
  have h4 := submit_nextRequestId st vid c ts
  have h5 := submit_fheOracle st vid c ts
  by_cases hi : (st.encryptedChoiceCount (bytes32ToString (FHE.toBytes32 c))).isSome
  · have hl := submit_choiceList_of_init st vid c ts hi
    have ht := submit_tally_of_init st vid c ts hi
    refine ⟨?_, ?_, ?_, ?_, ?_, ?_, ?_⟩
    · rw [hl]; exact hst.nodup
    · intro X hX; rw [hl] at hX; rw [ht]; exact hst.listed_init X hX
    · intro X hX; rw [ht] at hX; rw [hl]; exact hst.init_listed X hX
    · intro i hilt
      rw [h1] at hilt
      rw [h2, hl]
      dsimp only
      by_cases hieq : i + 1 = st.voteCount + 1
      · rw [if_pos hieq]
        exact hst.init_listed _ hi
      · rw [if_neg hieq]
        exact hst.votes_listed i (by omega)
    · intro r hr; rw [h4] at hr; rw [h3]; exact hst.fresh_req r hr
    · intro r hr; rw [h4] at hr; rw [h5]; exact hst.fresh_oracle r hr
    · intro r h0
      rw [h3] at h0
      obtain ⟨X, hmem, heq, hsome⟩ := hst.pending_resolves r h0
      exact ⟨X, by rw [hl]; exact hmem, by rw [h3]; exact heq, by rw [h5]; exact hsome⟩
  · have hl := submit_choiceList_of_not_init st vid c ts hi
    have ht := submit_tally_of_not_init st vid c ts hi
    have hknotin : bytes32ToString (FHE.toBytes32 c) ∉ st.choiceList := fun hmem =>
      hi (hst.listed_init _ hmem)
    refine ⟨?_, ?_, ?_, ?_, ?_, ?_, ?_⟩
    · rw [hl]
      exact List.Nodup.append hst.nodup (List.nodup_singleton _)
        (List.disjoint_singleton.mpr hknotin)
    · intro X hX
      rw [hl] at hX
      rw [ht]
      dsimp only
      by_cases hXk : X = bytes32ToString (FHE.toBytes32 c)
      · rw [if_pos hXk]; rfl
      · rw [if_neg hXk]
        rcases List.mem_append.mp hX with hX | hX
        · exact hst.listed_init X hX
        · exact absurd (List.mem_singleton.mp hX) hXk
    · intro X hX
      rw [ht] at hX
      dsimp only at hX
      rw [hl]
      by_cases hXk : X = bytes32ToString (FHE.toBytes32 c)
      · exact List.mem_append_right _ (List.mem_singleton.mpr hXk)
      · rw [if_neg hXk] at hX
        exact List.mem_append_left _ (hst.init_listed X hX)
    · intro i hilt
      rw [h1] at hilt
      rw [h2, hl]
      dsimp only
      by_cases hieq : i + 1 = st.voteCount + 1
      · rw [if_pos hieq]
        exact List.mem_append_right _ (List.mem_singleton.mpr rfl)
      · rw [if_neg hieq]
        exact List.mem_append_left _ (hst.votes_listed i (by omega))
    · intro r hr; rw [h4] at hr; rw [h3]; exact hst.fresh_req r hr
    · intro r hr; rw [h4] at hr; rw [h5]; exact hst.fresh_oracle r hr
    · intro r h0
      rw [h3] at h0
      obtain ⟨X, hmem, heq, hsome⟩ := hst.pending_resolves r h0
      exact ⟨X, by rw [hl]; exact List.mem_append_left _ hmem,
        by rw [h3]; exact heq, by rw [h5]; exact hsome⟩

theorem Inv.aggregate (st : PollState) (hst : Inv st) : Inv (aggregateVotes st) := by
  have h1 := aggregateVotes_voteCount st
  have h2 := aggregateVotes_encryptedVotes st
  have h3 := aggregateVotes_decryptionRequests st
  have h4 := aggregateVotes_nextRequestId st
  have h5 := aggregateVotes_fheOracle st
  have hl := aggregateVotes_choiceList st
  refine ⟨?_, ?_, ?_, ?_, ?_, ?_, ?_⟩
  · rw [hl]; exact hst.nodup
  · intro X hX
    rw [hl] at hX
    rw [aggregateVotes_tally]
    by_cases hc : (aggKeys st).count X = 0
    · rw [if_pos hc]; exact hst.listed_init X hX
    · rw [if_neg hc]; rfl
  · intro X hX
    rw [aggregateVotes_tally] at hX
    rw [hl]
    by_cases hc : (aggKeys st).count X = 0
    · rw [if_pos hc] at hX
      exact hst.init_listed X hX
    · have hmemk : X ∈ aggKeys st := List.count_pos_iff.mp (Nat.pos_of_ne_zero hc)
      unfold aggKeys at hmemk
      obtain ⟨i, hi, hkey⟩ := List.mem_map.mp hmemk
      rw [List.mem_range] at hi
      rw [← hkey]
      exact hst.votes_listed i hi
  · intro i hi
    rw [h1] at hi
    rw [h2, hl]
    exact hst.votes_listed i hi
  · intro r hr; rw [h4] at hr; rw [h3]; exact hst.fresh_req r hr
  · intro r hr; rw [h4] at hr; rw [h5]; exact hst.fresh_oracle r hr
  · intro r h0
    rw [h3] at h0
    obtain ⟨X, hmem, heq, hsome⟩ := hst.pending_resolves r h0
    exact ⟨X, by rw [hl]; exact hmem, by rw [h3]; exact heq, by rw [h5]; exact hsome⟩

theorem Inv.request (st st1 : PollState) (ch : Nat) (evs : List Event) (hst : Inv st)
    (h : requestChoiceDecryption st ch = .ok (st1, evs)) : Inv st1 := by
  obtain ⟨hi, rfl, -⟩ := request_ok_elim st st1 ch evs h
  unfold stateAfterRequest
  refine ⟨hst.nodup, hst.listed_init, hst.init_listed, hst.votes_listed, ?_, ?_, ?_⟩
  · intro r hr
    dsimp only at hr ⊢
    have hne : r ≠ st.nextRequestId := by omega
    rw [if_neg hne]
    exact hst.fresh_req r (by omega)
  · intro r hr
    dsimp only at hr ⊢
    have hne : r ≠ st.nextRequestId := by omega
    rw [if_neg hne]
    exact hst.fresh_oracle r (by omega)
  · intro r h0
    dsimp only at h0 ⊢
    by_cases hre : r = st.nextRequestId
    · refine ⟨ch, hst.init_listed ch hi, ?_, ?_⟩
      · rw [if_pos hre]
      · rw [if_pos hre]
        exact hi
    · rw [if_neg hre] at h0
      obtain ⟨X, hmem, heq, hsome⟩ := hst.pending_resolves r h0
      refine ⟨X, hmem, ?_, ?_⟩
      · rw [if_neg hre]
        exact heq
      · rw [if_neg hre]
        exact hsome

theorem Inv.callback (st st1 : PollState) (rid cl : Nat) (p : Bool) (evs : List Event)
    (hst : Inv st) (h : decryptChoiceCount st rid cl p = .ok (st1, evs)) : Inv st1 := by
  obtain ⟨rfl, -, -⟩ := decrypt_ok_elim st st1 rid cl p evs h
  exact hst

theorem Step_inv (st st' : PollState) (h : Step st st') (hst : Inv st) : Inv st' := by
  cases h with
  | submit vid c ts => exact Inv.submit st hst vid c ts
  | aggregate => exact Inv.aggregate st hst
  | request st1 ch evs h => exact Inv.request st _ ch evs hst h
  | callback st1 rid cl p evs h => exact Inv.callback st _ rid cl p evs hst h

theorem Inv.initState : Inv PrivacyPolls.initState := by
  refine ⟨List.nodup_nil, ?_, ?_, ?_, ?_, ?_, ?_⟩
  · intro X hX; exact absurd hX (List.not_mem_nil X)
  · intro X hX; exact absurd hX (by simp [PrivacyPolls.initState])
  · intro i hi; exact absurd hi (Nat.not_lt_zero i)
  · intro r _; rfl
  · intro r _; rfl
  · intro r h0; exact absurd rfl h0

theorem Reachable_inv (st : PollState) (h : Reachable st) : Inv st := by
  unfold Reachable Steps at h
  induction h with
  | refl => exact Inv.initState
  | tail hab hbc ih => exact Step_inv _ _ hbc ih

theorem Steps_persist (st st' : PollState) (h : Steps st st') :
    st.nextRequestId ≤ st'.nextRequestId ∧
      ∀ r, r < st.nextRequestId →
        st'.decryptionRequests r = st.decryptionRequests r ∧
          st'.fheOracle r = st.fheOracle r := by
  induction h with
  | refl => exact ⟨le_refl _, fun r _ => ⟨rfl, rfl⟩⟩
  | tail hab hbc ih =>
      obtain ⟨hle, hpres⟩ := ih
      obtain ⟨hle2, hpres2⟩ := Step_persist _ _ hbc
      refine ⟨le_trans hle hle2, fun r hr => ?_⟩
      obtain ⟨h1, h2⟩ := hpres r hr
      obtain ⟨h3, h4⟩ := hpres2 r (lt_of_lt_of_le hr hle)
      exact ⟨h3.trans h1, h4.trans h2⟩

/-! ### Characterization of a fresh deployment followed by a batch of votes -/

theorem submitAll_append (st : PollState) (vs : List (Nat × Nat × Nat))
    (v : Nat × Nat × Nat) :
    submitAll st (vs ++ [v]) = (submitEncryptedVote (submitAll st vs) v.1 v.2.1 v.2.2).1 := by
  unfold submitAll
  rw [List.foldl_append]
  rfl

theorem keysOf_append (vs : List (Nat × Nat × Nat)) (v : Nat × Nat × Nat) :
    keysOf (vs ++ [v]) = keysOf vs ++ [bytes32ToString (FHE.toBytes32 v.2.1)] := by
  unfold keysOf
  rw [List.map_append]
  rfl

theorem submitAll_reachable (vs : List (Nat × Nat × Nat)) :
    Reachable (submitAll initState vs) := by
  induction vs using List.reverseRecOn with
  | nil => exact Relation.ReflTransGen.refl
  | append_singleton vs v ih =>
      rw [submitAll_append]
      exact Relation.ReflTransGen.tail ih (Step.submit _ v.1 v.2.1 v.2.2)

theorem FHE_asEuint32_zero : FHE.asEuint32 0 = some 0 := by
  unfold FHE.asEuint32
  norm_num

theorem submitAll_spec (vs : List (Nat × Nat × Nat)) :
    SubmitSpec vs (submitAll initState vs) := by
  induction vs using List.reverseRecOn with
  | nil =>
      refine ⟨rfl, ?_, ?_, ?_, ?_⟩
      · intro i h; exact absurd h (Nat.not_lt_zero i)
      · intro X hX; exact absurd hX (List.not_mem_nil X)
      · intro X _; rfl
      · intro X
        constructor
        · intro hX; exact absurd hX (List.not_mem_nil X)
        · intro hX; exact absurd hX (List.not_mem_nil X)
  | append_singleton vs v ih =>
      rw [submitAll_append]
      have hkeys := keysOf_append vs v
      by_cases hmem : bytes32ToString (FHE.toBytes32 v.2.1) ∈ keysOf vs
      · have hi : ((submitAll initState vs).encryptedChoiceCount
            (bytes32ToString (FHE.toBytes32 v.2.1))).isSome := by
          rw [ih.tally_mem _ hmem]; rfl
        refine ⟨?_, ?_, ?_, ?_, ?_⟩
        · rw [submit_voteCount, ih.count_eq, List.length_append]
          rfl
        · intro i h
          rw [submit_encryptedVotes]
          dsimp only
          rw [ih.count_eq]
          by_cases hieq : i + 1 = vs.length + 1
          · rw [if_pos hieq]
            have hi2 : i = vs.length := by omega
            have hget : (vs ++ [v]).get ⟨i, h⟩ = v := by
              rw [List.get_eq_getElem]
              exact List.getElem_concat_length vs v i hi2 _
            rw [hget]
          · rw [if_neg hieq]
            have hlt : i < vs.length := by
              rw [List.length_append] at h
              simp only [List.length_singleton] at h
              omega
            have hget : (vs ++ [v]).get ⟨i, h⟩ = vs.get ⟨i, hlt⟩ := by
              rw [List.get_eq_getElem, List.get_eq_getElem]
              exact List.getElem_append_left hlt
            rw [hget]
            exact ih.votes_eq i hlt
        · intro X hX
          rw [submit_tally_of_init _ _ _ _ hi]
          rw [hkeys] at hX
          rcases List.mem_append.mp hX with hX | hX
          · exact ih.tally_mem X hX
          · rw [List.mem_singleton.mp hX]
            exact ih.tally_mem _ hmem
        · intro X hX
          rw [submit_tally_of_init _ _ _ _ hi]
          rw [hkeys] at hX
          exact ih.tally_not_mem X fun hmem2 => hX (List.mem_append_left _ hmem2)
        · intro X
          rw [submit_choiceList_of_init _ _ _ _ hi, hkeys]
          constructor
          · intro hX
            exact List.mem_append_left _ ((ih.mem_list X).mp hX)
          · intro hX
            rcases List.mem_append.mp hX with hX | hX
            · exact (ih.mem_list X).mpr hX
            · rw [List.mem_singleton.mp hX]
              exact (ih.mem_list _).mpr hmem
      · have hni : ¬ ((submitAll initState vs).encryptedChoiceCount
            (bytes32ToString (FHE.toBytes32 v.2.1))).isSome := by
          rw [ih.tally_not_mem _ hmem]; simp
        refine ⟨?_, ?_, ?_, ?_, ?_⟩
        · rw [submit_voteCount, ih.count_eq, List.length_append]
          rfl
        · intro i h
          rw [submit_encryptedVotes]
          dsimp only
          rw [ih.count_eq]
          by_cases hieq : i + 1 = vs.length + 1
          · rw [if_pos hieq]
            have hi2 : i = vs.length := by omega
            have hget : (vs ++ [v]).get ⟨i, h⟩ = v := by
              rw [List.get_eq_getElem]
              exact List.getElem_concat_length vs v i hi2 _
            rw [hget]
          · rw [if_neg hieq]
            have hlt : i < vs.length := by
              rw [List.length_append] at h
              simp only [List.length_singleton] at h
              omega
            have hget : (vs ++ [v]).get ⟨i, h⟩ = vs.get ⟨i, hlt⟩ := by
              rw [List.get_eq_getElem, List.get_eq_getElem]
              exact List.getElem_append_left hlt
            rw [hget]
            exact ih.votes_eq i hlt
        · intro X hX
          rw [submit_tally_of_not_init _ _ _ _ hni]
          dsimp only
          rw [hkeys] at hX
          by_cases hXk : X = bytes32ToString (FHE.toBytes32 v.2.1)
          · rw [if_pos hXk]
            exact FHE_asEuint32_zero
          · rw [if_neg hXk]
            rcases List.mem_append.mp hX with hX | hX
            · exact ih.tally_mem X hX
            · exact absurd (List.mem_singleton.mp hX) hXk
        · intro X hX
          rw [submit_tally_of_not_init _ _ _ _ hni]
          dsimp only
          rw [hkeys] at hX
          have hXk : X ≠ bytes32ToString (FHE.toBytes32 v.2.1) := fun he =>
            hX (List.mem_append_right _ (List.mem_singleton.mpr he))
          rw [if_neg hXk]
          exact ih.tally_not_mem X fun hmem2 => hX (List.mem_append_left _ hmem2)
        · intro X
          rw [submit_choiceList_of_not_init _ _ _ _ hni, hkeys]
          constructor
          · intro hX
            rcases List.mem_append.mp hX with hX | hX
            · exact List.mem_append_left _ ((ih.mem_list X).mp hX)
            · exact List.mem_append_right _ hX
          · intro hX
            rcases List.mem_append.mp hX with hX | hX
            · exact List.mem_append_left _ ((ih.mem_list X).mpr hX)
            · exact List.mem_append_right _ hX

/-- The keys the aggregation loop processes after a batch submission into a
fresh deployment are exactly the batch's keys, in order. -/
theorem aggKeys_submitAll (vs : List (Nat × Nat × Nat)) :
    aggKeys (submitAll initState vs) = keysOf vs := by
  have spec := submitAll_spec vs
  unfold aggKeys
  rw [spec.count_eq]
  refine List.ext_get ?_ ?_
  · rw [List.length_map, List.length_range]
    unfold keysOf
    rw [List.length_map]
  · intro n h1 h2
    rw [List.length_map, List.length_range] at h1
    unfold keysOf keyOfVote
    simp only [List.get_eq_getElem, List.getElem_map, List.getElem_range]
    rw [show (submitAll initState vs).encryptedVotes (n + 1)
        = ⟨(vs.get ⟨n, h1⟩).1, (vs.get ⟨n, h1⟩).2.1, (vs.get ⟨n, h1⟩).2.2⟩ from
      spec.votes_eq n h1]
    rfl

theorem submitAll_aggregate_tally (vs : List (Nat × Nat × Nat)) (X : Nat)
    (hmem : X ∈ keysOf vs) :
    (aggregateVotes (submitAll initState vs)).encryptedChoiceCount X
      = some ((keysOf vs).count X % 2 ^ 32) := by
  have spec := submitAll_spec vs
  rw [aggregateVotes_tally, aggKeys_submitAll]
  have hc : (keysOf vs).count X ≠ 0 :=
    Nat.pos_iff_ne_zero.mp (List.count_pos_iff.mpr hmem)
  rw [if_neg hc, spec.tally_mem X hmem]
  rw [Option.getD_some, Nat.zero_add]

theorem sum_counts_of_nodup (L M : List Nat) (hnd : L.Nodup)
    (hmem : ∀ X, X ∈ L ↔ X ∈ M) :
    (L.map fun X => M.count X).sum = M.length := by
  have h1 : L.toFinset.sum (fun X => M.count X) = (L.map fun X => M.count X).sum :=
    List.sum_toFinset _ hnd
  have h2 : L.toFinset = M.toFinset := by
    ext a
    rw [List.mem_toFinset, List.mem_toFinset]
    exact hmem a
  rw [← h1, h2]
  exact List.sum_toFinset_count_eq_length M

/-! ### Concrete execution traces used by the claim theorems -/

theorem exSt1_reachable : Reachable exSt1 :=
  Relation.ReflTransGen.tail Relation.ReflTransGen.refl (Step.submit initState 1 7 0)

theorem exSt2_reachable : Reachable exSt2 :=
  Relation.ReflTransGen.tail exSt1_reachable (Step.aggregate exSt1)

theorem exSt3_reachable : Reachable exSt3 :=
  Relation.ReflTransGen.tail exSt2_reachable
    (Step.request exSt2 exSt3 7 [Event.DecryptionRequested 0] rfl)

theorem exSt3_to_exSt4 : Steps exSt3 exSt4 :=
  Relation.ReflTransGen.tail
    (Relation.ReflTransGen.tail Relation.ReflTransGen.refl (Step.submit exSt3 2 9 1))
    (Step.aggregate ((submitEncryptedVote exSt3 2 9 1).1))

/-! ### The claims -/

/-- C1: the claim states that calling `aggregateVotes` a second time with no
intervening vote submission folds zero additional votes, leaving every tally
unchanged.  The code violates this: it keeps no aggregation cursor and
rescans the whole ledger on every call, so after one submitted vote the first
call brings the tally of its key to 1 and an immediate second call doubles it
to 2. -/
theorem C1_aggregate_not_idempotent :
    (aggregateVotes exSt1).encryptedChoiceCount 7 = some 1 ∧
      (aggregateVotes (aggregateVotes exSt1)).encryptedChoiceCount 7 = some 2 := by
  decide

/-- C2: the claim states that a callback succeeds only for a pending request
and that each request is fulfilled at most once, a second callback failing
with `UnknownRequest`.  The code violates this: `decryptChoiceCount` never
deletes `decryptionRequests[requestId]`, so a successful callback leaves the
state unchanged (third conjunct: the commitment for request id 0 is still
stored) and the identical second callback succeeds again, re-emitting
`VoteCountDecrypted` (the contract also has no `UnknownRequest` error at
all; an unknown id reverts inside `getChoiceFromHash` with the `"Choice not
found"` message, fourth conjunct). -/
theorem C2_second_callback_succeeds :
    requestChoiceDecryption exSt2 7 = .ok (exSt3, [Event.DecryptionRequested 0]) ∧
      decryptChoiceCount exSt3 0 1 true = .ok (exSt3, [Event.VoteCountDecrypted 7 1]) ∧
      exSt3.decryptionRequests 0 = 8 ∧
      decryptChoiceCount exSt3 5 1 true = .error PollError.ChoiceNotFound := by
  refine ⟨rfl, rfl, by decide, rfl⟩

/-- C3 (amended): after submitting a batch of votes into a fresh deployment
and aggregating once, the tally of a key `X` occurring `k` times decrypts to
exactly `k`, and the decrypted tallies over the registered options sum to the
total number of votes — provided every option's vote count stays below
`2 ^ 32` (the tallies are `euint32` values and wrap modulo `2 ^ 32`, which is
what the counterexample exploits at `k = 2 ^ 32`). -/
theorem C3_conservation_mod (vs : List (Nat × Nat × Nat)) (X k : Nat)
    (hmem : X ∈ keysOf vs) (hk : (keysOf vs).count X = k)
    (hall : ∀ Y, Y ∈ keysOf vs → (keysOf vs).count Y < 2 ^ 32) :
    (aggregateVotes (submitAll initState vs)).encryptedChoiceCount X = some k ∧
      ((aggregateVotes (submitAll initState vs)).choiceList.map fun Y =>
          ((aggregateVotes (submitAll initState vs)).encryptedChoiceCount Y).getD 0).sum
        = vs.length := by
  have spec := submitAll_spec vs
  constructor
  · rw [submitAll_aggregate_tally vs X hmem, hk, Nat.mod_eq_of_lt (hk ▸ hall X hmem)]
  · have hnd : (submitAll initState vs).choiceList.Nodup :=
      (Reachable_inv _ (submitAll_reachable vs)).nodup
    rw [aggregateVotes_choiceList]
    have hmap : ((submitAll initState vs).choiceList.map fun Y =>
        ((aggregateVotes (submitAll initState vs)).encryptedChoiceCount Y).getD 0)
        = (submitAll initState vs).choiceList.map fun Y => (keysOf vs).count Y := by
      refine List.map_congr_left ?_
      intro Y hY
      have hYmem : Y ∈ keysOf vs := (spec.mem_list Y).mp hY
      rw [submitAll_aggregate_tally vs Y hYmem, Option.getD_some,
        Nat.mod_eq_of_lt (hall Y hYmem)]
    rw [hmap, sum_counts_of_nodup _ _ hnd spec.mem_list]
    unfold keysOf
    rw [List.length_map]

/-- Witness for C3 (amended): voters 1 and 2 vote with handle 7, voter 3 with
handle 8; after one aggregation the tally of key 7 decrypts to 2 and the
tallies sum to 3. -/
theorem C3_conservation_mod_witness :
    (aggregateVotes (submitAll initState
        [(1, 7, 0), (2, 7, 1), (3, 8, 2)])).encryptedChoiceCount 7 = some 2 ∧
      ((aggregateVotes (submitAll initState
          [(1, 7, 0), (2, 7, 1), (3, 8, 2)])).choiceList.map fun Y =>
            ((aggregateVotes (submitAll initState
              [(1, 7, 0), (2, 7, 1), (3, 8, 2)])).encryptedChoiceCount Y).getD 0).sum
        = 3 :=
  C3_conservation_mod [(1, 7, 0), (2, 7, 1), (3, 8, 2)] 7 2 (by decide) (by decide)
    (by decide)

/-- C3 counterexample: the claim as stated quantifies over every `k`, but for
`k = 2 ^ 32` votes carrying key 7 the `euint32` tally wraps and decrypts to
0, not to `k`. -/
theorem C3_counterexample :
    (aggregateVotes (submitAll initState
        (List.replicate (2 ^ 32) (0, 7, 0)))).encryptedChoiceCount 7 = some 0 ∧
      (aggregateVotes (submitAll initState
        (List.replicate (2 ^ 32) (0, 7, 0)))).encryptedChoiceCount 7 ≠ some (2 ^ 32) := by
  have hmem : (7 : Nat) ∈ keysOf (List.replicate (2 ^ 32) ((0 : Nat), (7 : Nat), (0 : Nat))) := by
    unfold keysOf
    rw [List.map_replicate]
    exact List.mem_replicate.mpr ⟨by norm_num, rfl⟩
  have hcount : (keysOf (List.replicate (2 ^ 32) ((0 : Nat), (7 : Nat), (0 : Nat)))).count 7
      = 2 ^ 32 := by
    unfold keysOf
    rw [List.map_replicate, List.count_replicate]
    simp [bytes32ToString, FHE.toBytes32]
  have h := submitAll_aggregate_tally (List.replicate (2 ^ 32) (0, 7, 0)) 7 hmem
  rw [hcount, Nat.mod_self] at h
  refine ⟨h, ?_⟩
  rw [h]
  intro hcontra
  have h0 := Option.some.inj hcontra
  norm_num at h0

/-- C4: the claim states that submitting a vote never modifies the choice
registry.  The code violates this: on a vote whose ciphertext-derived key is
new, `submitEncryptedVote` initializes a tally for that key and pushes it
onto `choiceList` — option registration is driven precisely by observing the
submitted vote's ciphertext bytes. -/
theorem C4_submit_registers_choice :
    initState.choiceList = [] ∧
      (submitEncryptedVote initState 1 7 0).1.choiceList = [7] ∧
      (submitEncryptedVote initState 1 7 0).1.encryptedChoiceCount 7 = some 0 := by
  decide

/-- C5: the claim states that aggregation fails (rejecting the whole call)
when a ledger entry references an unregistered `ChoiceKey`.  The code cannot
fail: `aggregateVotes` is a total rescan, and on an entry with an
unregistered key the FHE library treats the uninitialized tally as an
encryption of zero, so the call silently initializes and updates a tally for
that key (while leaving it off the choice list) instead of reverting.  (Such
a state is unreachable through the entry points, since submission registers
every vote's key — see the reachability invariant — but the operation itself
has no failure path.) -/
theorem C5_aggregate_unregistered_key_no_failure :
    unregState.choiceList = [] ∧ unregState.encryptedChoiceCount 7 = none ∧
      (aggregateVotes unregState).encryptedChoiceCount 7 = some 1 ∧
      (aggregateVotes unregState).choiceList = [] := by
  decide

/-- C6: for a reachable state with choice key `X` holding tally value `v`, a
decryption request for `X` followed — after any interleaved sequence of
contract calls — by a callback carrying a valid proof succeeds and emits
`VoteCountDecrypted X v`, where `v` is the tally value snapshotted at request
time; moreover every successful callback for that request id emits exactly
that event, so votes submitted and aggregated between request and callback
are never reflected in the emitted count. -/
theorem C6_round_trip (st st1 st2 : PollState) (X v rid : Nat)
    (hst : Reachable st)
    (hv : st.encryptedChoiceCount X = some v)
    (hreq : requestChoiceDecryption st X = .ok (st1, [Event.DecryptionRequested rid]))
    (hsteps : Steps st1 st2) :
    decryptChoiceCount st2 rid v true = .ok (st2, [Event.VoteCountDecrypted X v]) ∧
      ∀ cl p st3 evs2, decryptChoiceCount st2 rid cl p = .ok (st3, evs2) →
        st3 = st2 ∧ evs2 = [Event.VoteCountDecrypted X v] := by
  have hinv := Reachable_inv st hst
  have hiX : (st.encryptedChoiceCount X).isSome := by rw [hv]; rfl
  obtain ⟨-, rfl, hevs⟩ := request_ok_elim st st1 X _ hreq
  have hrid : rid = st.nextRequestId := by simpa using hevs
  obtain ⟨hle, hpres⟩ := Steps_persist _ _ hsteps
  have hrlt : rid < (stateAfterRequest st X).nextRequestId := by
    rw [hrid]
    exact Nat.lt_succ_self _
  obtain ⟨hdr, hor⟩ := hpres rid hrlt
  have hdr2 : st2.decryptionRequests rid = bytes32ToUint (keccak256 X) := by
    rw [hdr]
    unfold stateAfterRequest
    dsimp only
    rw [if_pos hrid]
  have hor2 : st2.fheOracle rid = some v := by
    rw [hor]
    unfold stateAfterRequest
    dsimp only
    rw [if_pos hrid]
    exact hv
  have hmem1 : X ∈ st.choiceList := hinv.init_listed X hiX
  obtain ⟨ltail, hlist⟩ := Steps_choiceList_extends _ _ hsteps
  have hmem2 : X ∈ st2.choiceList := by
    rw [hlist]
    exact List.mem_append_left _ hmem1
  have hlookup : getChoiceFromHash st2.choiceList (st2.decryptionRequests rid) = .ok X := by
    rw [hdr2]
    exact getChoiceFromHash_keccak _ X hmem2
  have hsig : FHE.checkSignatures st2 rid v true = true := by
    unfold FHE.checkSignatures
    rw [hor2]
    simp
  constructor
  · unfold decryptChoiceCount
    dsimp only
    rw [hlookup]
    dsimp only
    rw [if_pos hsig]
  · intro cl p st3 evs2 hcb
    obtain ⟨rfl, hsig2, choice, hchoice, rfl⟩ := decrypt_ok_elim st2 st3 rid cl p evs2 hcb
    rw [hlookup] at hchoice
    have hcX : choice = X := (Except.ok.inj hchoice).symm
    unfold FHE.checkSignatures at hsig2
    rw [hor2] at hsig2
    have hclv : cl = v := by
      rw [Bool.and_eq_true] at hsig2
      have hb := hsig2.2
      rw [beq_iff_eq] at hb
      exact (Option.some.inj hb).symm
    exact ⟨rfl, by rw [hcX, hclv]⟩

/-- Witness for C6: after submitting handle 7, aggregating and requesting
decryption for key 7 (snapshot value 1), then submitting handle 9 and
aggregating again before the callback, the valid callback still emits
`VoteCountDecrypted 7 1`, and any successful callback for request id 0 emits
exactly that. -/
theorem C6_round_trip_witness :
    decryptChoiceCount exSt4 0 1 true = .ok (exSt4, [Event.VoteCountDecrypted 7 1]) ∧
      ∀ cl p st3 evs2, decryptChoiceCount exSt4 0 cl p = .ok (st3, evs2) →
        st3 = exSt4 ∧ evs2 = [Event.VoteCountDecrypted 7 1] :=
  C6_round_trip exSt2 exSt3 exSt4 7 1 0 exSt2_reachable (by decide) rfl exSt3_to_exSt4

/-- C7: in every reachable state, `requestChoiceDecryption` on a choice key
with no initialized tally fails with the `"Choice not found"` revert (and, the
call being a revert, no state change); on a registered key it succeeds,
emitting `DecryptionRequested` for the fresh id `nextRequestId` (fresh in
that no commitment is stored under it), storing the commitment
`keccak256(choice)` under that id and touching no other pending entry. -/
theorem C7_request_spec (st : PollState) (X : Nat) (hst : Reachable st) :
    (st.encryptedChoiceCount X = none →
      requestChoiceDecryption st X = .error PollError.ChoiceNotFound) ∧
    (∀ v, st.encryptedChoiceCount X = some v →
      st.decryptionRequests st.nextRequestId = 0 ∧
      requestChoiceDecryption st X
          = .ok (stateAfterRequest st X, [Event.DecryptionRequested st.nextRequestId]) ∧
      (stateAfterRequest st X).decryptionRequests st.nextRequestId
          = bytes32ToUint (keccak256 X) ∧
      ∀ r, r ≠ st.nextRequestId →
        (stateAfterRequest st X).decryptionRequests r = st.decryptionRequests r) := by
  constructor
  · intro hnone
    refine request_eq_of_not_init st X ?_
    rw [hnone]
    simp
  · intro v hv
    have hi : (st.encryptedChoiceCount X).isSome := by rw [hv]; rfl
    refine ⟨(Reachable_inv st hst).fresh_req _ (le_refl _),
      request_eq_of_init st X hi, ?_, ?_⟩
    · unfold stateAfterRequest
      dsimp only
      rw [if_pos rfl]
    · intro r hr
      unfold stateAfterRequest
      dsimp only
      rw [if_neg hr]

/-- Witness for C7: in the reachable state `exSt2`, requesting key 9 (never
voted, tally uninitialized) reverts with `"Choice not found"`, while
requesting the registered key 7 succeeds with fresh request id 0 and stores
its commitment. -/
theorem C7_request_spec_witness :
    requestChoiceDecryption exSt2 9 = .error PollError.ChoiceNotFound ∧
      requestChoiceDecryption exSt2 7
        = .ok (stateAfterRequest exSt2 7, [Event.DecryptionRequested exSt2.nextRequestId]) ∧
      (stateAfterRequest exSt2 7).decryptionRequests exSt2.nextRequestId
        = bytes32ToUint (keccak256 7) := by
  refine ⟨(C7_request_spec exSt2 9 exSt2_reachable).1 (by decide), ?_, ?_⟩
  · exact ((C7_request_spec exSt2 7 exSt2_reachable).2 1 (by decide)).2.1
  · exact ((C7_request_spec exSt2 7 exSt2_reachable).2 1 (by decide)).2.2.1

/-- C8: in a reachable state with a pending request (a stored commitment for
`rid`), a callback whose proof fails signature verification reverts with
`InvalidProof` — a revert, so no state change at all — and the very same
state still accepts a callback with the correct cleartext and a valid proof,
which then succeeds and emits the decrypted count. -/
theorem C8_invalid_proof_no_side_effects (st : PollState) (rid cl : Nat) (p : Bool)
    (hst : Reachable st) (hpend : st.decryptionRequests rid ≠ 0)
    (hbad : FHE.checkSignatures st rid cl p = false) :
    decryptChoiceCount st rid cl p = .error PollError.InvalidProof ∧
      ∃ X v, X ∈ st.choiceList ∧
        st.decryptionRequests rid = bytes32ToUint (keccak256 X) ∧
        st.fheOracle rid = some v ∧
        decryptChoiceCount st rid v true = .ok (st, [Event.VoteCountDecrypted X v]) := by
  have hinv := Reachable_inv st hst
  obtain ⟨X, hmem, heq, hsome⟩ := hinv.pending_resolves rid hpend
  obtain ⟨v, hv⟩ := Option.isSome_iff_exists.mp hsome
  have hlookup : getChoiceFromHash st.choiceList (st.decryptionRequests rid) = .ok X := by
    rw [heq]
    exact getChoiceFromHash_keccak _ X hmem
  constructor
  · unfold decryptChoiceCount
    dsimp only
    rw [hlookup]
    dsimp only
    rw [if_neg (by rw [hbad]; simp)]
  · refine ⟨X, v, hmem, heq, hv, ?_⟩
    have hsig : FHE.checkSignatures st rid v true = true := by
      unfold FHE.checkSignatures
      rw [hv]
      simp
    unfold decryptChoiceCount
    dsimp only
    rw [hlookup]
    dsimp only
    rw [if_pos hsig]

/-- Witness for C8: with request id 0 pending in `exSt3` (snapshot value 1),
a callback with tampered proof bytes reverts with `InvalidProof`, and the
unchanged state still accepts the correctly proved callback. -/
theorem C8_invalid_proof_no_side_effects_witness :
    decryptChoiceCount exSt3 0 1 false = .error PollError.InvalidProof ∧
      ∃ X v, X ∈ exSt3.choiceList ∧
        exSt3.decryptionRequests 0 = bytes32ToUint (keccak256 X) ∧
        exSt3.fheOracle 0 = some v ∧
        decryptChoiceCount exSt3 0 v true = .ok (exSt3, [Event.VoteCountDecrypted X v]) :=
  C8_invalid_proof_no_side_effects exSt3 0 1 false exSt3_reachable (by decide) (by decide)

/-- C9: the contract performs no duplicate-voter rejection: submission is a
total operation with no precondition on the voter id, so a second call with
the same `voterId` behaves exactly like the first — it appends a new ledger
entry under the next sequential index, increments `voteCount` again and
emits `VoteSubmitted`. -/
theorem C9_no_duplicate_voter_rejection (st : PollState) (vid c1 ts1 c2 ts2 : Nat) :
    (submitEncryptedVote st vid c1 ts1).1.voteCount = st.voteCount + 1 ∧
      (submitEncryptedVote st vid c1 ts1).1.encryptedVotes (st.voteCount + 1)
        = ⟨vid, c1, ts1⟩ ∧
      (submitEncryptedVote st vid c1 ts1).2 = [Event.VoteSubmitted vid ts1] ∧
      (submitEncryptedVote (submitEncryptedVote st vid c1 ts1).1 vid c2 ts2).1.voteCount
        = st.voteCount + 2 ∧
      (submitEncryptedVote (submitEncryptedVote st vid c1 ts1).1 vid c2 ts2).1.encryptedVotes
        (st.voteCount + 2) = ⟨vid, c2, ts2⟩ ∧
      (submitEncryptedVote (submitEncryptedVote st vid c1 ts1).1 vid c2 ts2).2
        = [Event.VoteSubmitted vid ts2] := by
  refine ⟨submit_voteCount st vid c1 ts1, ?_, submit_events st vid c1 ts1, ?_, ?_, ?_⟩
  · rw [submit_encryptedVotes]
    dsimp only
    rw [if_pos rfl]
  · rw [submit_voteCount, submit_voteCount st vid c1 ts1]
  · rw [submit_encryptedVotes]
    dsimp only
    rw [submit_voteCount st vid c1 ts1, if_pos rfl]
  · exact submit_events _ vid c2 ts2

/-- C10: in every reachable state the choice list has no duplicate entries
and every listed key has an initialized tally; every entry point only ever
appends to the choice list (never removing or reordering); and a submission
appends its key exactly when that key's tally slot is uninitialized, in which
case the tally is initialized to an encryption of zero. -/
theorem C10_choice_registry_invariant (st st' : PollState) (hst : Reachable st)
    (hstep : Step st st') :
    st.choiceList.Nodup ∧
      (∀ X, X ∈ st.choiceList → (st.encryptedChoiceCount X).isSome) ∧
      (∃ l, st'.choiceList = st.choiceList ++ l) ∧
      ∀ vid c ts,
        ((st.encryptedChoiceCount (bytes32ToString (FHE.toBytes32 c))).isSome →
          (submitEncryptedVote st vid c ts).1.choiceList = st.choiceList) ∧
        (¬ (st.encryptedChoiceCount (bytes32ToString (FHE.toBytes32 c))).isSome →
          (submitEncryptedVote st vid c ts).1.choiceList
              = st.choiceList ++ [bytes32ToString (FHE.toBytes32 c)] ∧
            (submitEncryptedVote st vid c ts).1.encryptedChoiceCount
              (bytes32ToString (FHE.toBytes32 c)) = FHE.asEuint32 0) := by
  have hinv := Reachable_inv st hst
  refine ⟨hinv.nodup, hinv.listed_init, Step_choiceList_extends st st' hstep, ?_⟩
  intro vid c ts
  constructor
  · exact submit_choiceList_of_init st vid c ts
  · intro hni
    refine ⟨submit_choiceList_of_not_init st vid c ts hni, ?_⟩
    rw [submit_tally_of_not_init st vid c ts hni]
    dsimp only
    rw [if_pos rfl]

/-- Witness for C10: instantiated at the reachable one-vote state `exSt1`
and the aggregation step leading to `exSt2`. -/
theorem C10_choice_registry_invariant_witness :
    exSt1.choiceList.Nodup ∧
      (∀ X, X ∈ exSt1.choiceList → (exSt1.encryptedChoiceCount X).isSome) ∧
      (∃ l, exSt2.choiceList = exSt1.choiceList ++ l) ∧
      ∀ vid c ts,
        ((exSt1.encryptedChoiceCount (bytes32ToString (FHE.toBytes32 c))).isSome →
          (submitEncryptedVote exSt1 vid c ts).1.choiceList = exSt1.choiceList) ∧
        (¬ (exSt1.encryptedChoiceCount (bytes32ToString (FHE.toBytes32 c))).isSome →
          (submitEncryptedVote exSt1 vid c ts).1.choiceList
              = exSt1.choiceList ++ [bytes32ToString (FHE.toBytes32 c)] ∧
            (submitEncryptedVote exSt1 vid c ts).1.encryptedChoiceCount
              (bytes32ToString (FHE.toBytes32 c)) = FHE.asEuint32 0) :=
  C10_choice_registry_invariant exSt1 exSt2 exSt1_reachable (Step.aggregate exSt1)

end PrivacyPolls
